import Mathlib

/-!
Verification of the report-safety checker of `src/Py/day-02.py`
(Advent of Code 2024, day 2).

The Python code defines

* `is_safe(row)`: computes the set
  `inc = {row[i+1] - row[i] for i in range(len(row) - 1)}`
  of consecutive differences and returns
  `inc <= {1, 2, 3} or inc <= {-1, -2, -3}`;
* part 1 counts the rows with `is_safe(row)` true;
* part 2 counts the rows with
  `any([is_safe(row[:i] + row[i + 1:]) for i in range(len(row))])` true.

Reports are embedded as `List Int`, Python sets of integers as `Finset Int`,
and the slices `row[:i] + row[i+1:]` as `List.take i ++ List.drop (i+1)`.
-/

namespace Day02

/-- The list of consecutive differences `row[i+1] - row[i]` for
`i in range(len(row) - 1)`, before Python's set comprehension removes
duplicates.  Out-of-range `getD` defaults never fire: every index used is
in bounds (proved below). -/
def incList (row : List Int) : List Int :=
  (List.range (row.length - 1)).map (fun i => row.getD (i + 1) 0 - row.getD i 0)

/-- The set `inc = {row[i+1] - row[i] for i in range(len(row) - 1)}` of the
Python code (a set comprehension, so duplicates are removed). -/
def inc (row : List Int) : Finset Int :=
  (incList row).toFinset

/-- `is_safe(row)` from `src/Py/day-02.py`:
`inc <= {1, 2, 3} or inc <= {-1, -2, -3}` where `<=` is set inclusion. -/
def is_safe (row : List Int) : Bool :=
  decide (inc row ⊆ ({1, 2, 3} : Finset Int)) ||
    decide (inc row ⊆ ({-1, -2, -3} : Finset Int))

/-- The slice expression `row[:i] + row[i+1:]` of the part-2 comprehension:
the list with the element at index `i` removed. -/
def removeAt (row : List Int) (i : Nat) : List Int :=
  row.take i ++ row.drop (i + 1)

/-- The part-2 per-row expression of `src/Py/day-02.py`:
`any([is_safe(row[:i] + row[i + 1:]) for i in range(len(row))])`. -/
def safe_with_one_removal (row : List Int) : Bool :=
  ((List.range row.length).map (fun i => is_safe (removeAt row i))).any id

/-- Part 1: `safe_count = sum(is_safe(row) for row in data)`, with Python's
`True` counted as 1 and `False` as 0. -/
def safe_count (data : List (List Int)) : Nat :=
  (data.map (fun row => if is_safe row then 1 else 0)).sum

/-- Part 2: `safe_count = sum(any([...]) for row in data)`. -/
def safe_count2 (data : List (List Int)) : Nat :=
  (data.map (fun row => if safe_with_one_removal row then 1 else 0)).sum

/-- Structural form of the consecutive differences, convenient for proofs. -/
def diffs : List Int → List Int
  | a :: b :: rest => (b - a) :: diffs (b :: rest)
  | _ => []

theorem incList_nil : incList [] = [] := rfl

theorem incList_singleton (a : Int) : incList [a] = [] := rfl

theorem incList_cons_cons (a b : Int) (rest : List Int) :
    incList (a :: b :: rest) = (b - a) :: incList (b :: rest) := by
  simp only [incList, List.length_cons, Nat.add_sub_cancel,
    List.range_succ_eq_map, List.map_cons, List.map_map]
  congr 1

theorem incList_eq_diffs (l : List Int) : incList l = diffs l := by
  induction l with
  | nil => rfl
  | cons a tail ih =>
    cases tail with
    | nil => rfl
    | cons b rest =>
      rw [incList_cons_cons, ih, diffs]

theorem inc_eq (l : List Int) : inc l = (diffs l).toFinset := by
  rw [inc, incList_eq_diffs]

/-- `is_safe` in terms of the structural difference list. -/
theorem is_safe_iff (row : List Int) :
    is_safe row = true ↔
      (∀ d ∈ diffs row, d ∈ ({1, 2, 3} : Finset Int)) ∨
        (∀ d ∈ diffs row, d ∈ ({-1, -2, -3} : Finset Int)) := by
  simp [is_safe, inc_eq, Finset.subset_iff]

/-- `is_safe` in terms of the raw difference list of the code. -/
theorem is_safe_iff_incList (row : List Int) :
    is_safe row = true ↔
      (∀ d ∈ incList row, d ∈ ({1, 2, 3} : Finset Int)) ∨
        (∀ d ∈ incList row, d ∈ ({-1, -2, -3} : Finset Int)) := by
  simp [is_safe, inc, Finset.subset_iff]

/-- Every difference the code forms reads the list at in-bounds indices, so
`getD` never falls back to its default and agrees with `get`. -/
theorem forall_mem_incList (row : List Int) (S : Finset Int) :
    (∀ d ∈ incList row, d ∈ S) ↔
      ∀ i : Nat, ∀ h : i + 1 < row.length,
        row.get ⟨i + 1, h⟩ - row.get ⟨i, Nat.lt_of_succ_lt h⟩ ∈ S := by
  simp only [incList, List.mem_map, List.mem_range]
  constructor
  · intro H i h
    have hi : i < row.length - 1 := by omega
    have hmem := H _ ⟨i, hi, rfl⟩
    rwa [List.getD_eq_get _ _ h, List.getD_eq_get _ _ (Nat.lt_of_succ_lt h)] at hmem
  · rintro H d ⟨i, hi, rfl⟩
    have h : i + 1 < row.length := by omega
    rw [List.getD_eq_get _ _ h, List.getD_eq_get _ _ (Nat.lt_of_succ_lt h)]
    exact H i h

theorem diffs_dropLast (l : List Int) : diffs l.dropLast = (diffs l).dropLast := by
  induction l with
  | nil => rfl
  | cons a tail ih =>
    cases tail with
    | nil => rfl
    | cons b rest =>
      cases rest with
      | nil => rfl
      | cons c rest2 =>
        rw [show (a :: b :: c :: rest2).dropLast = a :: (b :: c :: rest2).dropLast from rfl]
        rw [show (b :: c :: rest2).dropLast = b :: (c :: rest2).dropLast from rfl]
        rw [diffs]
        rw [show (b : Int) :: (c :: rest2).dropLast = (b :: c :: rest2).dropLast from rfl]
        rw [ih, diffs, diffs]
        rfl

theorem removeAt_last (l : List Int) (h : l ≠ []) :
    removeAt l (l.length - 1) = l.dropLast := by
  have h1 : l.length - 1 + 1 = l.length :=
    Nat.succ_pred_eq_of_pos (List.length_pos.mpr h)
  rw [removeAt, h1, List.drop_length, List.append_nil, List.dropLast_eq_take]

theorem is_safe_dropLast (l : List Int) (h : is_safe l = true) :
    is_safe l.dropLast = true := by
  rw [is_safe_iff] at h ⊢
  rw [diffs_dropLast]
  rcases h with h | h
  · exact Or.inl fun d hd => h d (List.dropLast_subset _ hd)
  · exact Or.inr fun d hd => h d (List.dropLast_subset _ hd)

theorem safe_with_one_removal_iff (row : List Int) :
    safe_with_one_removal row = true ↔
      ∃ i, i < row.length ∧ is_safe (removeAt row i) = true := by
  simp [safe_with_one_removal, List.any_eq_true]

theorem diffs_map_add (c : Int) (l : List Int) :
    diffs (l.map (fun x => x + c)) = diffs l := by
  induction l with
  | nil => rfl
  | cons a tail ih =>
    cases tail with
    | nil => rfl
    | cons b rest =>
      simp only [List.map_cons] at ih ⊢
      rw [diffs, diffs, ih]
      congr 1
      ring

theorem diffs_concat (xs : List Int) (a : Int) (h : xs ≠ []) :
    diffs (xs ++ [a]) = diffs xs ++ [a - xs.getLastD 0] := by
  induction xs with
  | nil => exact absurd rfl h
  | cons x tail ih =>
    cases tail with
    | nil => rfl
    | cons y ys =>
      rw [List.cons_append, List.cons_append, diffs,
        show (y :: (ys ++ [a])) = (y :: ys) ++ [a] from rfl,
        ih (List.cons_ne_nil y ys), diffs]
      rw [List.getLastD_cons 0 x (y :: ys), List.getLastD_cons x y ys,
        List.getLastD_cons 0 y ys]
      rfl

theorem getLastD_reverse (l : List Int) (d : Int) :
    l.reverse.getLastD d = l.headD d := by
  rw [List.getLastD_eq_getLast?, List.getLast?_eq_head?_reverse, List.reverse_reverse,
    List.headD_eq_head?]

theorem diffs_reverse (l : List Int) :
    diffs l.reverse = ((diffs l).map (fun d => -d)).reverse := by
  induction l with
  | nil => rfl
  | cons a tail ih =>
    cases tail with
    | nil => rfl
    | cons b rest =>
      rw [List.reverse_cons, diffs_concat _ _ (by simp), ih,
        getLastD_reverse, diffs, List.map_cons, List.reverse_cons]
      rw [show (b :: rest).headD 0 = b from rfl]
      congr 1
      rw [neg_sub]

theorem neg_mem_pos_iff (y : Int) :
    -y ∈ ({1, 2, 3} : Finset Int) ↔ y ∈ ({-1, -2, -3} : Finset Int) := by
  simp only [Finset.mem_insert, Finset.mem_singleton]
  omega

theorem neg_mem_neg_iff (y : Int) :
    -y ∈ ({-1, -2, -3} : Finset Int) ↔ y ∈ ({1, 2, 3} : Finset Int) := by
  simp only [Finset.mem_insert, Finset.mem_singleton]
  omega

/-- C1: `is_safe(report)` returns true if and only if the set of consecutive
differences `report[i+1] - report[i]` is entirely contained in `{1, 2, 3}` or
entirely contained in `{-1, -2, -3}`; in particular any zero difference, any
difference of absolute value greater than 3, or a mix of positive and negative
differences makes both subset checks fail. -/
theorem is_safe_spec (row : List Int) :
    is_safe row = true ↔
      ((∀ i : Nat, ∀ h : i + 1 < row.length,
          row.get ⟨i + 1, h⟩ - row.get ⟨i, Nat.lt_of_succ_lt h⟩ ∈
            ({1, 2, 3} : Finset Int)) ∨
        (∀ i : Nat, ∀ h : i + 1 < row.length,
          row.get ⟨i + 1, h⟩ - row.get ⟨i, Nat.lt_of_succ_lt h⟩ ∈
            ({-1, -2, -3} : Finset Int))) := by
  rw [is_safe_iff_incList, forall_mem_incList, forall_mem_incList]

theorem is_safe_spec_witness : is_safe ([] : List Int) = true :=
  (is_safe_spec []).mpr (Or.inl fun i h => by simp at h)

/-- C2 counterexample: on the empty report the claimed equivalence fails,
because `is_safe([])` is true while `any` over an empty range is false. -/
theorem one_removal_empty_cex :
    ¬ (safe_with_one_removal ([] : List Int) = true ↔
        (is_safe ([] : List Int) = true ∨
          ∃ i, i < ([] : List Int).length ∧
            is_safe (removeAt ([] : List Int) i) = true)) := by
  intro hiff
  have h := hiff.mpr (Or.inl (by decide))
  simp [safe_with_one_removal] at h

/-- C2 (amended): for every NON-EMPTY report, the part-2 per-row expression
returns true iff `is_safe(report)` is already true or some single deletion
makes the report safe.  On the empty report the expression returns false even
though `is_safe([])` is true. -/
theorem one_removal_iff (row : List Int) (hne : row ≠ []) :
    safe_with_one_removal row = true ↔
      (is_safe row = true ∨
        ∃ i, i < row.length ∧ is_safe (removeAt row i) = true) := by
  rw [safe_with_one_removal_iff]
  constructor
  · exact fun h => Or.inr h
  · rintro (h | h)
    · refine ⟨row.length - 1, ?_, ?_⟩
      · have := List.length_pos.mpr hne
        omega
      · rw [removeAt_last row hne]
        exact is_safe_dropLast row h
    · exact h

theorem one_removal_iff_witness : safe_with_one_removal [1, 2] = true :=
  (one_removal_iff [1, 2] (by decide)).mpr (Or.inl (by decide))

/-- C3 counterexample: the empty report is safe yet fails the one-removal
check, so the implication does not hold for every report. -/
theorem safe_monotone_empty_cex :
    is_safe ([] : List Int) = true ∧
      safe_with_one_removal ([] : List Int) = false := by
  decide

/-- C3 (amended): for every NON-EMPTY report, `is_safe(R)` implies the part-2
one-removal expression is true on R; the empty report is the sole exception. -/
theorem safe_monotone (row : List Int) (hne : row ≠ [])
    (h : is_safe row = true) : safe_with_one_removal row = true := by
  rw [safe_with_one_removal_iff]
  refine ⟨row.length - 1, ?_, ?_⟩
  · have := List.length_pos.mpr hne
    omega
  · rw [removeAt_last row hne]
    exact is_safe_dropLast row h

theorem safe_monotone_witness : safe_with_one_removal [5, 4] = true :=
  safe_monotone [5, 4] (by decide) (by decide)

/-- C4 counterexample: report 3, `[9,7,6,2,1]`, does NOT satisfy the
one-removal check (no single deletion can fix the difference of -4), while
report 5, `[8,6,4,4,1]`, does (deleting one of the 4s). -/
theorem example_rows_cex :
    safe_with_one_removal [9, 7, 6, 2, 1] = false ∧
      safe_with_one_removal [8, 6, 4, 4, 1] = true := by
  decide

/-- C4 (amended): on the six example reports the naturally-safe count is 2
(reports 1 and 6) and the one-removal count is 4, but the reports satisfying
the one-removal check are 1, 4, 5 and 6 — not 1, 3, 4 and 6. -/
theorem example_rows_counts :
    safe_count [[7, 6, 4, 2, 1], [1, 2, 7, 8, 9], [9, 7, 6, 2, 1],
        [1, 3, 2, 4, 5], [8, 6, 4, 4, 1], [1, 3, 6, 7, 9]] = 2 ∧
      List.map is_safe [[7, 6, 4, 2, 1], [1, 2, 7, 8, 9], [9, 7, 6, 2, 1],
        [1, 3, 2, 4, 5], [8, 6, 4, 4, 1], [1, 3, 6, 7, 9]] =
        [true, false, false, false, false, true] ∧
      safe_count2 [[7, 6, 4, 2, 1], [1, 2, 7, 8, 9], [9, 7, 6, 2, 1],
        [1, 3, 2, 4, 5], [8, 6, 4, 4, 1], [1, 3, 6, 7, 9]] = 4 ∧
      List.map safe_with_one_removal [[7, 6, 4, 2, 1], [1, 2, 7, 8, 9],
        [9, 7, 6, 2, 1], [1, 3, 2, 4, 5], [8, 6, 4, 4, 1], [1, 3, 6, 7, 9]] =
        [true, false, false, true, true, true] := by
  decide

/-- C5: the empty report and every singleton report are safe: their
difference set is empty, hence a subset of both bound sets. -/
theorem is_safe_nil_and_singleton :
    is_safe ([] : List Int) = true ∧ ∀ x : Int, is_safe [x] = true := by
  refine ⟨by decide, fun x => ?_⟩
  rw [is_safe_iff]
  left
  intro d hd
  rw [show diffs [x] = ([] : List Int) from rfl] at hd
  exact absurd hd (List.not_mem_nil d)

/-- C6 counterexample: `is_safe([1,4,7])` is true (both steps are 3, within
the bound), contradicting the claim that it returns false. -/
theorem step_bound_cex :
    ¬ (is_safe [1, 4, 7] = false ∧ is_safe [1, 5, 6] = false) := by
  decide

/-- C6 (amended): `is_safe([1,4,7])` = true (every step is 3, inside the
bound) and `is_safe([1,5,6])` = false (first step is 4, exceeding 3). -/
theorem step_bound_examples :
    is_safe [1, 4, 7] = true ∧ is_safe [1, 5, 6] = false := by
  decide

/-- C7: `is_safe` and the one-removal expression are total — they always
produce a boolean — and every index the difference comprehension reads
(`row[i]` and `row[i+1]` for `i in range(len(row) - 1)`) is in bounds. -/
theorem totality (row : List Int) :
    (is_safe row = true ∨ is_safe row = false) ∧
      (safe_with_one_removal row = true ∨
        safe_with_one_removal row = false) ∧
      (∀ i, i ∈ List.range (row.length - 1) →
        i < row.length ∧ i + 1 < row.length) := by
  refine ⟨?_, ?_, ?_⟩
  · cases h : is_safe row
    · exact Or.inr rfl
    · exact Or.inl rfl
  · cases h : safe_with_one_removal row
    · exact Or.inr rfl
    · exact Or.inl rfl
  · intro i hi
    rw [List.mem_range] at hi
    omega

theorem totality_witness :
    is_safe [7, 6] = true ∨ is_safe [7, 6] = false :=
  (totality [7, 6]).1

/-- C8: removing the last element of a non-empty safe report keeps it safe
(its difference list is a prefix of the original one), so the part-2
expression, which never tests the unmodified row, is still true on every
non-empty already-safe row. -/
theorem safe_dropLast_one_removal (row : List Int) (hne : row ≠ [])
    (h : is_safe row = true) :
    is_safe row.dropLast = true ∧ safe_with_one_removal row = true := by
  have hd : is_safe row.dropLast = true := is_safe_dropLast row h
  refine ⟨hd, ?_⟩
  rw [safe_with_one_removal_iff]
  refine ⟨row.length - 1, ?_, ?_⟩
  · have := List.length_pos.mpr hne
    omega
  · rw [removeAt_last row hne]
    exact hd

theorem safe_dropLast_one_removal_witness :
    is_safe ([1, 2, 3] : List Int).dropLast = true ∧
      safe_with_one_removal [1, 2, 3] = true :=
  safe_dropLast_one_removal [1, 2, 3] (by decide) (by decide)

/-- C9: translation invariance — adding a constant to every element of a
report leaves every consecutive difference, and hence `is_safe`, unchanged. -/
theorem is_safe_translation (row : List Int) (c : Int) :
    is_safe (row.map (fun x => x + c)) = is_safe row := by
  rw [Bool.eq_iff_iff, is_safe_iff, is_safe_iff, diffs_map_add]

/-- C10: reversal invariance — reversing a report negates every consecutive
difference, swapping the `{1,2,3}` check with the `{-1,-2,-3}` check, so
`is_safe` is unchanged. -/
theorem is_safe_reverse (row : List Int) :
    is_safe row.reverse = is_safe row := by
  rw [Bool.eq_iff_iff, is_safe_iff, is_safe_iff, diffs_reverse]
  simp only [List.mem_reverse, List.mem_map]
  constructor
  · rintro (h | h)
    · right
      intro d hd
      rw [← neg_mem_pos_iff]
      exact h _ ⟨d, hd, rfl⟩
    · left
      intro d hd
      rw [← neg_mem_neg_iff]
      exact h _ ⟨d, hd, rfl⟩
  · rintro (h | h)
    · right
      rintro d ⟨y, hy, rfl⟩
      rw [neg_mem_neg_iff]
      exact h y hy
    · left
      rintro d ⟨y, hy, rfl⟩
      rw [neg_mem_pos_iff]
      exact h y hy

end Day02
